import Mathlib

/-!
# Verification of the DP_TRACKER change-detection logic

Shallow embedding of the notification state machine of the DP_TRACKER
repository (`bot.py`, `dpwt_monitor_discord.py`,
`dpwt_monitor_discord_playwright.py`, `dpwt_marcel_bot.py`,
`ms_leaderboard_bot.py`).

Conventions of the embedding:

* Timestamps (`datetime` values) are modeled as `Int` seconds; a
  `timedelta` becomes a second count (`days=3` is `3 * 86400`).  The
  `iso_to_dt` parsing step is absorbed into the model: a snapshot field
  that holds a parseable ISO date is `some t`, a missing or unparseable
  one is `none`.
* A Python value that may be `None` is an `Option`.
* Python `dict`s are association lists; `d.get(k)` is `aget`, `d[k] = v`
  is `aset` (overwrite in place, append when absent), matching insertion
  order semantics.
* Python truthiness (`if x:`, `x or y`) is modeled explicitly: `None`,
  `0` and `""` are falsy.
* Network fetches, file I/O and the text of chat messages are outside the
  embedded boundary: a call to `send_discord`/`post_discord` is modeled
  as emitting an event that carries the data the message is built from,
  and state load/save brackets become explicit state passing.
-/

namespace DPTracker

/-- Python `d.get(k)` on a string-keyed dict modeled as an association list. -/
def aget {α : Type} : List (String × α) → String → Option α
  | [], _ => none
  | p :: rest, k => if p.1 = k then some p.2 else aget rest k

/-- Python `d[k] = v`: overwrite the existing entry in place, append otherwise. -/
def aset {α : Type} : List (String × α) → String → α → List (String × α)
  | [], k, v => [(k, v)]
  | p :: rest, k, v => if p.1 = k then (k, v) :: rest else p :: aset rest k v

/-- Python truthiness of an optional integer (`None` and `0` are falsy). -/
def truthyInt : Option Int → Bool
  | some n => n != 0
  | none => false

/-- Python `a or b` on optional integers. -/
def orInt (a b : Option Int) : Option Int := if truthyInt a then a else b

/-- Python truthiness of an optional string (`None` and `""` are falsy). -/
def truthyStr : Option String → Bool
  | some s => s != ""
  | none => false

/-- Python `a or b` on optional strings. -/
def orStr (a b : Option String) : Option String := if truthyStr a then a else b

/-- Insert `x` after every element `y` with `le y x`; the building block of a
stable insertion sort used to model Python's (stable) `sorted`. -/
def insertLe {α : Type} (le : α → α → Bool) (x : α) : List α → List α
  | [] => [x]
  | y :: ys => if le y x then y :: insertLe le x ys else x :: y :: ys

/-- Model of Python `sorted(l, key=...)`: stable sort by the boolean
comparison `le`. -/
def sortLe {α : Type} (le : α → α → Bool) (l : List α) : List α :=
  l.foldl (fun acc x => insertLe le x acc) []

/-! ## `bot.py` — data model -/

/-- One entry of an event's `Rounds` list (`RoundNo`, `Strokes`, `Par`), as
read by `rounds_maps` in `bot.py`. -/
structure RoundEntry where
  roundNo : Option Int
  strokes : Option Int
  par : Option Int
deriving DecidableEq, Repr

/-- One result record of the season payload, restricted to the fields the
control logic of `bot.py` reads (`EventId`, `EventName`, `EndDate`,
`Rounds`, `Total`, `ScoreToPar`); fields used only inside message text
(`Position`, `Points`, `Earnings`, `EventUrl`, ...) are not part of the
embedded boundary. -/
structure EventRec where
  eventId : Option Int
  eventName : Option String
  endDate : Option Int
  rounds : List RoundEntry
  total : Option Int
  scoreToPar : Option Int
deriving DecidableEq, Repr

/-- Model of `rounds_maps(e.get("Rounds"))[0].get(i)` in `bot.py`: the strokes dict is
keyed by `RoundNo` with later entries overwriting earlier ones, and `get`
returns `None` both for an absent key and a stored `None` value (every use
site only distinguishes `is None` / `is not None`, so the two are conflated
exactly as in the source). -/
def strokesOf (rounds : List RoundEntry) (i : Int) : Option Int :=
  (rounds.reverse.find? (fun r => r.roundNo == some i)).bind (·.strokes)

/-- Model of `event_active` in `bot.py`: active iff `now` is inside
`[end_date - 3 days, end_date + 12 hours]` and the event is not finished
(`Total` and `ScoreToPar` present and strokes for all four rounds). An
absent `EndDate` yields `False`. -/
def event_active (e : EventRec) (now : Int) : Bool :=
  match e.endDate with
  | none => false
  | some endDt =>
    let startDt := endDt - 3 * 86400
    let window := decide (startDt ≤ now) && decide (now ≤ endDt + 12 * 3600)
    if !window then false
    else
      let complete := ([1, 2, 3, 4] : List Int).all
        (fun i => (strokesOf e.rounds i).isSome)
      let finished := e.total.isSome && e.scoreToPar.isSome && complete
      !finished

/-- Value of `datetime.min` (0001-01-01 UTC) in epoch seconds: the sort key
`choose_current` substitutes for an absent `EndDate`. -/
def dtMin : Int := -62135596800

/-- The sort key of `choose_current`: `iso_to_dt(e.get("EndDate")) or
datetime.min`. -/
def endKey (e : EventRec) : Int := e.endDate.getD dtMin

/-- The loop body of `choose_current`: skip events without a parseable
`EndDate`, keep the event when its absolute distance to `now` strictly
improves on the running best. -/
def ccStep (now : Int) (acc : Option EventRec × Int) (e : EventRec) :
    Option EventRec × Int :=
  match e.endDate with
  | none => acc
  | some dt => if |dt - now| < acc.2 then (some e, |dt - now|) else acc

/-- Model of `choose_current` in `bot.py`: sort by `EndDate` (absent dates sorting as
`datetime.min`), then keep the first event whose absolute distance to `now`
is strictly below the running best, starting from a sentinel best of
`timedelta(days=9999)`; events without a parseable `EndDate` are skipped. -/
def choose_current (results : List EventRec) (now : Int) : Option EventRec :=
  let items := sortLe (fun a b => decide (endKey a ≤ endKey b)) results
  (items.foldl (ccStep now) ((none : Option EventRec), (9999 * 86400 : Int))).1

/-- The payload of `build_round_msgs` in `bot.py`: one message per round with
non-null strokes, in round order, carrying that round's number and strokes
(the further text of the message is formatting only). -/
def build_round_msgs (e : EventRec) : List (Int × Int) :=
  ([1, 2, 3, 4] : List Int).filterMap
    (fun i => (strokesOf e.rounds i).map (fun s => (i, s)))

/-- A chat message sent by `bot.py`, abstracted to the data it is built
from: an intermediate round message (round number and strokes as sent) or a
final "tournament finished" message for an event id. -/
inductive BotEvent where
  | roundMsg (roundNo : Int) (strokes : Int)
  | finalMsg (eventId : String)
deriving DecidableEq, Repr

/-- Model of `str(current.get("EventId"))` (Python renders `None` as `"None"`). -/
def idStr (e : EventRec) : String :=
  match e.eventId with
  | some n => toString n
  | none => "None"

/-- The key `f"R{i}"` under which `bot.py` stores a round's last posted
strokes. -/
def rKey (i : Int) : String := "R" ++ toString i

/-- The round-diff loop of `run_once_and_post` (`bot.py` lines 375-382): for
each round in the given index list, if the snapshot has non-null strokes
differing from the stored `seen` entry (including an absent entry), record
the new value and append the round to the to-post list. -/
def detectRounds (rounds : List RoundEntry) :
    List Int → List (String × Int) × List Int → List (String × Int) × List Int
  | [], acc => acc
  | i :: rest, acc =>
    match strokesOf rounds i with
    | none => detectRounds rounds rest acc
    | some s =>
      if aget acc.1 (rKey i) = some s then detectRounds rounds rest acc
      else detectRounds rounds rest (aset acc.1 (rKey i) s, acc.2 ++ [i])

/-- Persisted state of `bot.py` (`.state.json` / the GitHub issue blob):
`last_full_check`, `last_round_hash` and `posted_final_for`. -/
structure BotState where
  lastFullCheck : Int
  lastRoundHash : List (String × List (String × Int))
  postedFinalFor : List String
deriving DecidableEq, Repr

/-- The "aktive Runden posten" block of `run_once_and_post`: detect changed
rounds, and if any, send the messages selected by
`zip([1,2,3,4], msgs)` filtered through the detected index list, then store
the updated per-round values. -/
def roundPhase (st : BotState) (current : Option EventRec) (active : Bool) :
    List BotEvent × BotState :=
  match current, active with
  | some c, true =>
    let eid := idStr c
    let seen := (aget st.lastRoundHash eid).getD []
    let d := detectRounds c.rounds [1, 2, 3, 4] (seen, [])
    if d.2 = [] then ([], st)
    else
      let msgs := build_round_msgs c
      let sends := ((([1, 2, 3, 4] : List Int).zip msgs).filter
        (fun p => d.2.contains p.1)).map
        (fun p => BotEvent.roundMsg p.2.1 p.2.2)
      (sends, { st with lastRoundHash := aset st.lastRoundHash eid d.1 })
  | _, _ => ([], st)

/-- The "Abschluss melden" block of `run_once_and_post`: if the current
event is no longer active and its id is not yet in `posted_final_for`, send
the final message and append the id. -/
def finishPhase (st : BotState) (current : Option EventRec) (now : Int) :
    List BotEvent × BotState :=
  match current with
  | some c =>
    if !(event_active c now) then
      let eid := idStr c
      if st.postedFinalFor.contains eid then ([], st)
      else ([BotEvent.finalMsg eid],
        { st with postedFinalFor := st.postedFinalFor ++ [eid] })
    else ([], st)
  | none => ([], st)

/-- Result of one poll of `bot.py`: the messages sent, the saved state, and
the returned activity flag. -/
structure RunResult where
  events : List BotEvent
  state : BotState
  active : Bool
deriving DecidableEq, Repr

/-- Model of `event_active(current) if current else False` (`bot.py` line 357). -/
def curActive (current : Option EventRec) (now : Int) : Bool :=
  match current with
  | some c => event_active c now
  | none => false

/-- The processed (non-throttled) part of a poll: round phase, finish phase,
and the final `last_full_check = now` update before saving. -/
def pollCore (st : BotState) (current : Option EventRec) (now : Int)
    (active : Bool) : RunResult :=
  let r := roundPhase st current active
  let f := finishPhase r.2 current now
  ⟨r.1 ++ f.1, { f.2 with lastFullCheck := now }, active⟩

/-- Model of `run_once_and_post` in `bot.py` as a pure step: one poll over the fetched
result list at time `now`.  Faithful points to note: the throttled branch
(inactive and less than 4 hours since `last_full_check`) sends nothing but
*does* overwrite `last_full_check` with `now` before saving, and the final
message selection reuses `event_active` (the in-process `datetime.now` calls
of one poll are identified with the single `now`). -/
def run_once_and_post (st : BotState) (results : List EventRec) (now : Int) :
    RunResult :=
  if results.isEmpty then ⟨[], st, false⟩
  else
    let current := choose_current results now
    let active := curActive current now
    if !active && decide (now - st.lastFullCheck < 4 * 3600) then
      ⟨[], { st with lastFullCheck := now }, false⟩
    else pollCore st current now active

/-- A sequence of polls: each poll sees the state saved by the previous one;
the emitted messages are concatenated in order. -/
def runTrace (st : BotState) : List (List EventRec × Int) → List BotEvent
  | [] => []
  | poll :: rest =>
    let r := run_once_and_post st poll.1 poll.2
    r.events ++ runTrace r.state rest

/-! ## `hashlib.sha256` / `json.dumps` — the stdlib primitives behind
`sha` of `dpwt_monitor_discord.py` -/

/-- Truncation to a 32-bit word. -/
def w32 (n : Nat) : Nat := n % 4294967296

/-- Rotation of a 32-bit word to the right. -/
def rotr32 (n w : Nat) : Nat := w32 ((w >>> n) ||| (w <<< (32 - n)))

/-- SHA-256 Σ0. -/
def bigSigma0 (x : Nat) : Nat := (rotr32 2 x) ^^^ (rotr32 13 x) ^^^ (rotr32 22 x)

/-- SHA-256 Σ1. -/
def bigSigma1 (x : Nat) : Nat := (rotr32 6 x) ^^^ (rotr32 11 x) ^^^ (rotr32 25 x)

/-- SHA-256 σ0. -/
def smallSigma0 (x : Nat) : Nat := (rotr32 7 x) ^^^ (rotr32 18 x) ^^^ (x >>> 3)

/-- SHA-256 σ1. -/
def smallSigma1 (x : Nat) : Nat := (rotr32 17 x) ^^^ (rotr32 19 x) ^^^ (x >>> 10)

/-- SHA-256 Ch (with ¬x as xor against the all-ones word). -/
def chFn (x y z : Nat) : Nat := (x &&& y) ^^^ ((x ^^^ 4294967295) &&& z)

/-- SHA-256 Maj. -/
def majFn (x y z : Nat) : Nat := (x &&& y) ^^^ (x &&& z) ^^^ (y &&& z)

/-- The 64 SHA-256 round constants (decimal). -/
def sha256K : List Nat :=
  [1116352408, 1899447441, 3049323471, 3921009573, 961987163,
   1508970993, 2453635748, 2870763221, 3624381080, 310598401,
   607225278, 1426881987, 1925078388, 2162078206, 2614888103,
   3248222580, 3835390401, 4022224774, 264347078, 604807628,
   770255983, 1249150122, 1555081692, 1996064986, 2554220882,
   2821834349, 2952996808, 3210313671, 3336571891, 3584528711,
   113926993, 338241895, 666307205, 773529912, 1294757372,
   1396182291, 1695183700, 1986661051, 2177026350, 2456956037,
   2730485921, 2820302411, 3259730800, 3345764771, 3516065817,
   3600352804, 4094571909, 275423344, 430227734, 506948616,
   659060556, 883997877, 958139571, 1322822218, 1537002063,
   1747873779, 1955562222, 2024104815, 2227730452, 2361852424,
   2428436474, 2756734187, 3204031479, 3329325298]

/-- The SHA-256 initial hash value (decimal). -/
def sha256H0 : List Nat :=
  [1779033703, 3144134277, 1013904242, 2773480762,
   1359893119, 2600822924, 528734635, 1541459225]

/-- Extend a 16-word message block by `k` schedule words. -/
def extendW : List Nat → Nat → List Nat
  | w, 0 => w
  | w, Nat.succ k =>
    let n := w.length
    let nw := w32 (smallSigma1 (w.getD (n - 2) 0) + w.getD (n - 7) 0 +
      smallSigma0 (w.getD (n - 15) 0) + w.getD (n - 16) 0)
    extendW (w ++ [nw]) k

/-- One SHA-256 compression round on the 8-word working state. -/
def shaRound (s : List Nat) (k w : Nat) : List Nat :=
  match s with
  | [a, b, c, d, e, f, g, h] =>
    let t1 := w32 (h + bigSigma1 e + chFn e f g + k + w)
    let t2 := w32 (bigSigma0 a + majFn a b c)
    [w32 (t1 + t2), a, b, c, w32 (d + t1), e, f, g]
  | _ => s

/-- Process one 16-word block against the running hash value. -/
def processBlock (h : List Nat) (block : List Nat) : List Nat :=
  let w := extendW block 48
  let s := (sha256K.zip w).foldl (fun s kw => shaRound s kw.1 kw.2) h
  (h.zip s).map (fun p => w32 (p.1 + p.2))

/-- Group bytes into big-endian 32-bit words. -/
def bytesToWords : List Nat → List Nat
  | b0 :: b1 :: b2 :: b3 :: rest =>
    (((b0 * 256 + b1) * 256 + b2) * 256 + b3) :: bytesToWords rest
  | _ => []

/-- Split a word list into 16-word blocks (structural recursion with an
accumulator; the padded message length is always a multiple of 16 words). -/
def chunkWords : List Nat → List Nat → List (List Nat)
  | [], acc => if acc.isEmpty then [] else [acc]
  | w :: rest, acc =>
    if acc.length = 15 then (acc ++ [w]) :: chunkWords rest []
    else chunkWords rest (acc ++ [w])

/-- Split a word list into 16-word blocks. -/
def wordsToBlocks (ws : List Nat) : List (List Nat) := chunkWords ws []

/-- SHA-256 padding: append `0x80`, zero bytes up to 56 mod 64, and the
bit length as an 8-byte big-endian integer. -/
def shaPad (msg : List Nat) : List Nat :=
  let bitLen := 8 * msg.length
  let zeros := (56 + 64 - ((msg.length + 1) % 64)) % 64
  msg ++ [0x80] ++ List.replicate zeros 0 ++
    (List.range 8).map (fun i => (bitLen >>> (8 * (7 - i))) % 256)

/-- The SHA-256 digest of a byte string, as eight 32-bit words. -/
def sha256words (msg : List Nat) : List Nat :=
  (wordsToBlocks (bytesToWords (shaPad msg))).foldl processBlock sha256H0

/-- A lowercase hex digit. -/
def hexChar (n : Nat) : Char :=
  if n < 10 then Char.ofNat (48 + n) else Char.ofNat (87 + n)

/-- A 32-bit word as 8 lowercase hex characters. -/
def hexWord8 (w : Nat) : List Char :=
  (List.range 8).map (fun i => hexChar ((w >>> (4 * (7 - i))) % 16))

/-- Value of `hashlib.sha256(msg).hexdigest()` as a character list. -/
def sha256hexChars (msg : List Nat) : List Char :=
  ((sha256words msg).map hexWord8).flatten

/-- UTF-8 encoding of one character (`str.encode("utf-8")`). -/
def utf8Char (c : Char) : List Nat :=
  let n := c.toNat
  if n < 128 then [n]
  else if n < 2048 then [192 + n / 64, 128 + n % 64]
  else if n < 65536 then [224 + n / 4096, 128 + (n / 64) % 64, 128 + n % 64]
  else [240 + n / 262144, 128 + (n / 4096) % 64, 128 + (n / 64) % 64,
    128 + n % 64]

/-- UTF-8 encoding of a string. -/
def utf8Bytes (s : String) : List Nat := (s.data.map utf8Char).flatten

/-- Escaping of one character in `json.dumps` (`ensure_ascii=False`): only the
quote, the backslash and control characters are escaped. -/
def jsonEscapeChar (c : Char) : List Char :=
  if c = '"' then ['\\', '"']
  else if c = '\\' then ['\\', '\\']
  else if c.toNat ≥ 32 then [c]
  else if c = '\n' then ['\\', 'n']
  else if c = '\t' then ['\\', 't']
  else if c = '\r' then ['\\', 'r']
  else if c.toNat = 8 then ['\\', 'b']
  else if c.toNat = 12 then ['\\', 'f']
  else ['\\', 'u', '0', '0', hexChar (c.toNat / 16), hexChar (c.toNat % 16)]

/-- Rendering of one optional string by `json.dumps` (`None` becomes `null`). -/
def jsonItem : Option String → String
  | none => "null"
  | some s => "\"" ++ String.mk ((s.data.map jsonEscapeChar).flatten) ++ "\""

/-- Value of `json.dumps([a, b], sort_keys=True, ensure_ascii=False)` for a two-element
list of optional strings (`sort_keys` is a no-op on lists). -/
def jsonPair (a b : Option String) : String :=
  "[" ++ jsonItem a ++ ", " ++ jsonItem b ++ "]"

/-- Model of `sha(obj)` in `dpwt_monitor_discord.py`:
`hashlib.sha256(json.dumps(obj, ...).encode("utf-8")).hexdigest()[:12]`. -/
def sha12 (obj : String) : String :=
  String.mk ((sha256hexChars (utf8Bytes obj)).take 12)

/-! ## `dpwt_monitor_discord.py` — key derivation and detection loop -/

/-- One raw result item as read by `dpwt_monitor_discord.py` (`CompetitionId`,
`EventId`, `Tournament`, `TournamentName`, `EndDate`, `R1`..`R4`, `Total`;
round and total values arrive as strings in this payload, `EndDate` is used
verbatim, unparsed). -/
structure DEvent where
  competitionId : Option Int
  eventId : Option Int
  tournament : Option String
  tournamentName : Option String
  endDate : Option String
  r1 : Option String
  r2 : Option String
  r3 : Option String
  r4 : Option String
  total : Option String
  toPar : Option String
deriving DecidableEq, Repr

/-- Model of `ev_key` in `dpwt_monitor_discord.py`: `str(CompetitionId or EventId)`
when that chain is truthy, else the truncated sha-256 of
`[Tournament or TournamentName, EndDate]`. -/
def ev_key (ev : DEvent) : String :=
  let cid := orInt ev.competitionId ev.eventId
  if truthyInt cid then toString (cid.getD 0)
  else sha12 (jsonPair (orStr ev.tournament ev.tournamentName) ev.endDate)

/-- Python `str.strip()` on the character list (both-ends whitespace). -/
def stripChars (l : List Char) : List Char :=
  ((l.dropWhile Char.isWhitespace).reverse.dropWhile Char.isWhitespace).reverse

/-- Python `s.strip()`. -/
def pyStrip (s : String) : String := String.mk (stripChars s.data)

/-- Model of `(rdat.get(col) or "").strip() if rdat.get(col) else ""` in the round
loop in `dpwt_monitor_discord.py`. -/
def roundVal : Option String → String
  | none => ""
  | some s => if s = "" then "" else pyStrip s

/-- Lookup of `round_fields(ev)[f"R{rno}"]` for `rno` in 1..4. -/
def rfield (ev : DEvent) : Int → Option String
  | 1 => ev.r1
  | 2 => ev.r2
  | 3 => ev.r3
  | 4 => ev.r4
  | _ => none

/-- The finished heuristic of `dpwt_monitor_discord.py` line 258:
`bool((Total or "").strip()) and ((R4 or R3 or "").strip())`. -/
def discFinished (ev : DEvent) : Bool :=
  (pyStrip ((orStr ev.total (some "")).getD "") != "") &&
  (pyStrip ((orStr (orStr ev.r4 ev.r3) (some "")).getD "") != "")

/-- The per-event record of `state/events.json`
(`{"rounds": {...}, "finished": bool, "name": str}`). -/
structure DiscEntry where
  rounds : List (String × String)
  finished : Bool
  name : String
deriving DecidableEq, Repr

/-- A chat message sent by `dpwt_monitor_discord.py`, abstracted to the data
it is keyed on. -/
inductive DiscEvent where
  | baselineMsg (count : Nat)
  | roundMsg (key : String) (roundNo : Int) (strokes : String)
  | finalMsg (key : String)
deriving DecidableEq, Repr

/-- The round loop of `dpwt_monitor_discord.py` (lines 248-256): for each
round 1..4 whose stripped value is non-empty and differs from the stored
string, send a round update and store the new value. -/
def discRounds (ev : DEvent) (key : String) (entry : DiscEntry) :
    List DiscEvent × DiscEntry :=
  ([1, 2, 3, 4] : List Int).foldl
    (fun acc rno =>
      let val := roundVal (rfield ev rno)
      if val != "" && !(aget acc.2.rounds (toString rno) == some val) then
        (acc.1 ++ [DiscEvent.roundMsg key rno val],
         { acc.2 with rounds := aset acc.2.rounds (toString rno) val })
      else acc)
    (([], entry))

/-- Processing of one item in the main loop of `dpwt_monitor_discord.py`
(lines 242-263): `setdefault` the per-event entry, diff the rounds, then
send the final message once when the finished heuristic first turns true. -/
def discItem (events : List (String × DiscEntry)) (ev : DEvent) :
    List DiscEvent × List (String × DiscEntry) :=
  let key := ev_key ev
  let name := (orStr (orStr ev.tournament ev.tournamentName)
    (some "Turnier")).getD "Turnier"
  let events1 := if (aget events key).isSome then events
    else aset events key ⟨[], false, name⟩
  let entry := (aget events1 key).getD ⟨[], false, name⟩
  let r := discRounds ev key entry
  if discFinished ev && !r.2.finished then
    (r.1 ++ [DiscEvent.finalMsg key], aset events1 key { r.2 with finished := true })
  else
    (r.1, aset events1 key r.2)

/-- The main loop of `dpwt_monitor_discord.py` over all items. -/
def discLoop : List (String × DiscEntry) → List DEvent →
    List DiscEvent × List (String × DiscEntry)
  | events, [] => ([], events)
  | events, ev :: rest =>
    let r := discItem events ev
    let r2 := discLoop r.2 rest
    (r.1 ++ r2.1, r2.2)

/-- One poll of `dpwt_monitor_discord.py`'s `main` after a successful fetch
with a non-empty item list and a passing throttle (on the very first run the
throttle always passes with reason `"first"`): `ensure_baseline` posts the
baseline message when the baseline file is missing, and then the detection
loop runs over all items against the `events.json` state regardless. -/
def discRun (haveBaseline : Bool) (events : List (String × DiscEntry))
    (items : List DEvent) : List DiscEvent × List (String × DiscEntry) :=
  let base : List DiscEvent :=
    if haveBaseline then [] else [DiscEvent.baselineMsg items.length]
  let r := discLoop events items
  (base ++ r.1, r.2)

/-! ## `dpwt_monitor_discord_playwright.py` — baseline diffing -/

/-- A normalized tournament record as produced by `normalize_event`
(all scalar fields post-stringification, with `""` for an absent or falsy
value, matching `g(...)`'s default and the `str(x or "")` comparisons;
`finished` is the stored `_finished` heuristic flag and `eventIdStr` the
stringified `_EventId`, `""` when missing). -/
structure NormEvent where
  endDate : String
  tournament : String
  pos : String
  r2dr : String
  r2mr : String
  prize : String
  r1 : String
  r2 : String
  r3 : String
  r4 : String
  total : String
  toPar : String
  eventIdStr : String
  finished : Bool
deriving DecidableEq, Repr

/-- The `_finished` heuristic of `normalize_event`: `Total` strips to
something other than `""`/`"-"`, and `R4` is non-empty or (`R3` non-empty
and `R4` empty). -/
def pwFinished (total r4 r3 : String) : Bool :=
  let t := pyStrip total
  let r4s := pyStrip r4
  let r3s := pyStrip r3
  (t != "" && t != "-") && (r4s != "" || (r3s != "" && r4s == ""))

/-- Model of `to_key` in `dpwt_monitor_discord_playwright.py`: `f"id:{eid}"` for a
truthy `_EventId`, else `f"name:{Tournament}|end:{End Date}"`. -/
def to_key (e : NormEvent) : String :=
  if e.eventIdStr != "" then "id:" ++ e.eventIdStr
  else "name:" ++ e.tournament ++ "|end:" ++ e.endDate

/-- Model of the dict comprehension keyed by `to_key`: Python semantics (first
occurrence fixes the position, the last one the value). -/
def toMap (l : List NormEvent) : List (String × NormEvent) :=
  l.foldl (fun m e => aset m (to_key e) e) []

/-- The ten fields compared by `compare_baseline`. -/
inductive PWField where
  | fR1 | fR2 | fR3 | fR4 | fPos | fToPar | fTotal | fPrize | fR2DR | fR2MR
deriving DecidableEq, Repr

/-- Field access for the `compare_baseline` diff. -/
def pwFieldVal (e : NormEvent) : PWField → String
  | .fR1 => e.r1
  | .fR2 => e.r2
  | .fR3 => e.r3
  | .fR4 => e.r4
  | .fPos => e.pos
  | .fToPar => e.toPar
  | .fTotal => e.total
  | .fPrize => e.prize
  | .fR2DR => e.r2dr
  | .fR2MR => e.r2mr

/-- The field list `["R1","R2","R3","R4","Pos.","To Par","Total",
"Prize Money","R2DR Points","R2MR Points"]`. -/
def pwFields : List PWField :=
  [.fR1, .fR2, .fR3, .fR4, .fPos, .fToPar, .fTotal, .fPrize, .fR2DR, .fR2MR]

/-- The diff result of `compare_baseline`. -/
structure Changes where
  newTournaments : List NormEvent
  roundUpdates : List NormEvent
  finishedNow : List NormEvent
deriving DecidableEq, Repr

/-- Model of `compare_baseline(old_list, new_list)`: new keys, value diffs over the
ten compared fields, and `_finished` transitions from false to true. -/
def compare_baseline (oldL newL : List NormEvent) : Changes :=
  let oldMap := toMap oldL
  let newMap := toMap newL
  let newT := (newMap.filter (fun p => (aget oldMap p.1).isNone)).map (·.2)
  let updates := newMap.filterMap (fun p =>
    match aget oldMap p.1 with
    | none => none
    | some oldEv =>
      if pwFields.any (fun f => pwFieldVal oldEv f != pwFieldVal p.2 f)
      then some p.2 else none)
  let fin := newMap.filterMap (fun p =>
    match aget oldMap p.1 with
    | none => none
    | some oldEv =>
      if !oldEv.finished && p.2.finished then some p.2 else none)
  ⟨newT, updates, fin⟩

/-- A chat message sent by `dpwt_monitor_discord_playwright.py`, keyed by
the tournament it concerns. -/
inductive PWEvent where
  | baselineMsg (count : Nat)
  | newTournamentMsg (key : String)
  | roundMsg (key : String)
  | finishedMsg (key : String)
deriving DecidableEq, Repr

/-- The posts built from a diff, in source order: new tournaments, then
round updates, then finished tournaments. -/
def pwPosts (ch : Changes) : List PWEvent :=
  ch.newTournaments.map (fun e => PWEvent.newTournamentMsg (to_key e)) ++
  ch.roundUpdates.map (fun e => PWEvent.roundMsg (to_key e)) ++
  ch.finishedNow.map (fun e => PWEvent.finishedMsg (to_key e))

/-- One poll of `dpwt_monitor_discord_playwright.py`'s `main` as a pure step
over the normalized event list.  `runTick` is `should_run_this_tick(live)`;
`baseline` is the stored baseline file content (`none` when missing).  On
the very first run (no baseline) the baseline is written and only the single
baseline message is posted, in both the gated and the processed branch; the
baseline is rewritten after a processed poll only when there were changes. -/
def pwStep (runTick : Bool) (baseline : Option (List NormEvent))
    (events : List NormEvent) : List PWEvent × Option (List NormEvent) :=
  match baseline with
  | none => ([PWEvent.baselineMsg events.length], some events)
  | some old =>
    if !runTick then ([], some old)
    else
      let ch := compare_baseline old events
      if ch.newTournaments.isEmpty && ch.roundUpdates.isEmpty &&
          ch.finishedNow.isEmpty then
        ([], some old)
      else (pwPosts ch, some events)

/-! ## `dpwt_marcel_bot.py` / `ms_leaderboard_bot.py` — field wrap-up and
reminder -/

/-- A leaderboard row as read by `dpwt_marcel_bot.py` (`PlayerId`,
`Rounds`). -/
structure MPlayer where
  playerId : Option Int
  rounds : List RoundEntry
deriving DecidableEq, Repr

/-- Model of `all_players_finished_round` in `dpwt_marcel_bot.py`: every player has
some `Rounds` entry with the given `RoundNo` and non-null `Strokes`. -/
def all_players_finished_round (players : List MPlayer) (rno : Int) : Bool :=
  players.all (fun p =>
    p.rounds.any (fun r => r.roundNo == some rno && r.strokes.isSome))

/-- A round entry of `ms_leaderboard_bot.py`'s leaderboard (the
`int(r.get("RoundNo"))` coercion requires a numeric round number). -/
structure MsRound where
  roundNo : Int
  strokes : Option Int
deriving DecidableEq, Repr

/-- A leaderboard row as read by `ms_leaderboard_bot.py`. -/
structure MsPlayer where
  playerId : Int
  rounds : List MsRound
deriving DecidableEq, Repr

/-- Model of `round_strokes_map(p).get(rnd)` in `ms_leaderboard_bot.py` (later
entries with the same round number overwrite earlier ones; an absent key and
a stored `None` are both `None` at the only use site). -/
def round_strokes_map (p : MsPlayer) (rnd : Int) : Option Int :=
  (p.rounds.reverse.find? (fun r => r.roundNo == rnd)).bind (·.strokes)

/-- Model of `everyone_finished_round` in `ms_leaderboard_bot.py`: every player's
strokes map has a non-null value for the round. -/
def everyone_finished_round (players : List MsPlayer) (rnd : Int) : Bool :=
  players.all (fun p => (round_strokes_map p rnd).isSome)

/-- The reminder key of `ms_leaderboard_bot.py` line 355:
`str(eid) if eid else event_url`. -/
def preAlertKey (eid : Option Int) (eventUrl : String) : String :=
  if truthyInt eid then toString (eid.getD 0) else eventUrl

/-- The 2-day reminder block of `ms_leaderboard_bot.py` (lines 350-358):
when a parsed "Playing this week" row has a start date exactly 2 days ahead,
and the single-slot marker `pre_alert_event_id` differs from the event's
key, the reminder is posted and the marker is *overwritten* with that key.
Returns (reminder posted?, new marker). -/
def preAlertStep (marker : Option String) (startDate : Option Int)
    (eventName eventUrl : Option String) (today : Int) (eid : Option Int) :
    Bool × Option String :=
  match startDate, eventName, eventUrl with
  | some sd, some nm, some url =>
    if nm != "" && url != "" then
      if sd - today = 2 then
        let key := preAlertKey eid url
        if !(marker == some key) then (true, some key) else (false, marker)
      else (false, marker)
    else (false, marker)
  | _, _, _ => (false, marker)

/-! ## Lemmas on the dict model -/

theorem aget_aset_self {α : Type} (m : List (String × α)) (k : String) (v : α) :
    aget (aset m k v) k = some v := by
  induction m with
  | nil => simp [aset, aget]
  | cons p rest ih =>
    by_cases h : p.1 = k
    · simp [aset, aget, h]
    · simp [aset, aget, h, ih]

theorem aget_aset_ne {α : Type} (m : List (String × α)) (k k' : String) (v : α)
    (h : k' ≠ k) : aget (aset m k v) k' = aget m k' := by
  induction m with
  | nil =>
    simp only [aset, aget]
    rw [if_neg (fun hh => h hh.symm)]
  | cons p rest ih =>
    by_cases hp : p.1 = k
    · have hkk : ¬ k = k' := fun hh => h hh.symm
      simp only [aset, hp, if_true, aget, if_neg hkk]
    · simp only [aset, hp, if_false, aget]
      by_cases hpk : p.1 = k'
      · rw [if_pos hpk, if_pos hpk]
      · rw [if_neg hpk, if_neg hpk]
        exact ih

/-! ## Lemmas on the stable-sort model -/

theorem mem_insertLe {α : Type} (le : α → α → Bool) (x a : α) (l : List α) :
    a ∈ insertLe le x l ↔ a = x ∨ a ∈ l := by
  induction l with
  | nil => simp [insertLe]
  | cons y ys ih =>
    by_cases h : le y x
    · simp [insertLe, h, ih]
      tauto
    · simp [insertLe, h]

theorem pairwise_insertLe {α : Type} (le : α → α → Bool)
    (htrans : ∀ a b c, le a b = true → le b c = true → le a c = true)
    (htot : ∀ a b, le a b = true ∨ le b a = true) (x : α) (l : List α)
    (hl : l.Pairwise (fun a b => le a b = true)) :
    (insertLe le x l).Pairwise (fun a b => le a b = true) := by
  induction l with
  | nil => simp [insertLe]
  | cons y ys ih =>
    rcases List.pairwise_cons.mp hl with ⟨hy, hys⟩
    by_cases h : le y x = true
    · simp only [insertLe, h, if_true]
      refine List.pairwise_cons.mpr ⟨?_, ih hys⟩
      intro b hb
      rcases (mem_insertLe le x b ys).mp hb with rfl | hb'
      · exact h
      · exact hy b hb'
    · simp only [insertLe, h, if_false, Bool.false_eq_true]
      refine List.pairwise_cons.mpr ⟨?_, hl⟩
      intro b hb
      have hxy : le x y = true := by
        rcases htot x y with h1 | h1
        · exact h1
        · exact absurd h1 h
      rcases List.mem_cons.mp hb with rfl | hb'
      · exact hxy
      · exact htrans x y b hxy (hy b hb')

theorem mem_foldl_insertLe {α : Type} (le : α → α → Bool) (a : α) :
    ∀ (l acc : List α),
      a ∈ l.foldl (fun acc x => insertLe le x acc) acc ↔ a ∈ acc ∨ a ∈ l := by
  intro l
  induction l with
  | nil => simp
  | cons x xs ih =>
    intro acc
    simp only [List.foldl_cons, ih, mem_insertLe, List.mem_cons]
    tauto

theorem mem_sortLe {α : Type} (le : α → α → Bool) (a : α) (l : List α) :
    a ∈ sortLe le l ↔ a ∈ l := by
  simp [sortLe, mem_foldl_insertLe]

theorem pairwise_sortLe {α : Type} (le : α → α → Bool)
    (htrans : ∀ a b c, le a b = true → le b c = true → le a c = true)
    (htot : ∀ a b, le a b = true ∨ le b a = true) (l : List α) :
    (sortLe le l).Pairwise (fun a b => le a b = true) := by
  have key : ∀ (l acc : List α), acc.Pairwise (fun a b => le a b = true) →
      (l.foldl (fun acc x => insertLe le x acc) acc).Pairwise
        (fun a b => le a b = true) := by
    intro l
    induction l with
    | nil => intro acc h; simpa using h
    | cons x xs ih =>
      intro acc h
      exact ih _ (pairwise_insertLe le htrans htot x acc h)
  exact key l [] (by simp)

/-! ## The `choose_current` fold: shape, minimality and tie order -/

theorem ccFold_shape (now : Int) :
    ∀ (L : List EventRec) (b0 : Option EventRec) (bd0 : Int),
      ((L.foldl (ccStep now) (b0, bd0)).1 = none →
        b0 = none ∧ (L.foldl (ccStep now) (b0, bd0)).2 = bd0) ∧
      (∀ b, (L.foldl (ccStep now) (b0, bd0)).1 = some b →
        (b0 = some b ∧ (L.foldl (ccStep now) (b0, bd0)).2 = bd0) ∨
        (b ∈ L ∧ ∃ db, b.endDate = some db ∧
          |db - now| = (L.foldl (ccStep now) (b0, bd0)).2 ∧
          (L.foldl (ccStep now) (b0, bd0)).2 < bd0)) := by
  intro L
  induction L with
  | nil => simp
  | cons x rest ih =>
    intro b0 bd0
    cases hxd : x.endDate with
    | none =>
      have hstep : ccStep now (b0, bd0) x = (b0, bd0) := by
        simp [ccStep, hxd]
      constructor
      · intro h
        rw [List.foldl_cons, hstep] at h ⊢
        exact (ih b0 bd0).1 h
      · intro b h
        rw [List.foldl_cons, hstep] at h ⊢
        rcases (ih b0 bd0).2 b h with h1 | ⟨hmem, hrest⟩
        · exact Or.inl h1
        · exact Or.inr ⟨List.mem_cons_of_mem x hmem, hrest⟩
    | some dx =>
      by_cases hlt : |dx - now| < bd0
      · have hstep : ccStep now (b0, bd0) x = (some x, |dx - now|) := by
          simp [ccStep, hxd, hlt]
        constructor
        · intro h
          rw [List.foldl_cons, hstep] at h
          exact absurd ((ih (some x) (|dx - now|)).1 h).1 (by simp)
        · intro b h
          rw [List.foldl_cons, hstep] at h ⊢
          rcases (ih (some x) (|dx - now|)).2 b h with ⟨hb, hbd⟩ | ⟨hmem, db, hdb, hd, hless⟩
          · have hxb : x = b := by injection hb
            subst hxb
            exact Or.inr ⟨List.mem_cons_self x rest, dx, hxd, by omega, by omega⟩
          · exact Or.inr ⟨List.mem_cons_of_mem x hmem, db, hdb, hd, by omega⟩
      · have hstep : ccStep now (b0, bd0) x = (b0, bd0) := by
          simp [ccStep, hxd, hlt]
        constructor
        · intro h
          rw [List.foldl_cons, hstep] at h ⊢
          exact (ih b0 bd0).1 h
        · intro b h
          rw [List.foldl_cons, hstep] at h ⊢
          rcases (ih b0 bd0).2 b h with h1 | ⟨hmem, hrest⟩
          · exact Or.inl h1
          · exact Or.inr ⟨List.mem_cons_of_mem x hmem, hrest⟩

theorem ccFold_lb (now : Int) :
    ∀ (L : List EventRec) (b0 : Option EventRec) (bd0 : Int),
      (L.foldl (ccStep now) (b0, bd0)).2 ≤ bd0 ∧
      (∀ e ∈ L, ∀ d, e.endDate = some d →
        (L.foldl (ccStep now) (b0, bd0)).2 ≤ |d - now|) := by
  intro L
  induction L with
  | nil => simp
  | cons x rest ih =>
    intro b0 bd0
    cases hxd : x.endDate with
    | none =>
      have hstep : ccStep now (b0, bd0) x = (b0, bd0) := by
        simp [ccStep, hxd]
      rw [List.foldl_cons, hstep]
      refine ⟨(ih b0 bd0).1, ?_⟩
      intro e he d hd
      rcases List.mem_cons.mp he with rfl | he'
      · rw [hxd] at hd; cases hd
      · exact (ih b0 bd0).2 e he' d hd
    | some dx =>
      by_cases hlt : |dx - now| < bd0
      · have hstep : ccStep now (b0, bd0) x = (some x, |dx - now|) := by
          simp [ccStep, hxd, hlt]
        rw [List.foldl_cons, hstep]
        have h1 := (ih (some x) (|dx - now|)).1
        refine ⟨by omega, ?_⟩
        intro e he d hd
        rcases List.mem_cons.mp he with rfl | he'
        · rw [hxd] at hd
          cases hd
          exact h1
        · exact (ih (some x) (|dx - now|)).2 e he' d hd
      · have hstep : ccStep now (b0, bd0) x = (b0, bd0) := by
          simp [ccStep, hxd, hlt]
        rw [List.foldl_cons, hstep]
        have h1 := (ih b0 bd0).1
        refine ⟨h1, ?_⟩
        intro e he d hd
        rcases List.mem_cons.mp he with rfl | he'
        · rw [hxd] at hd
          cases hd
          omega
        · exact (ih b0 bd0).2 e he' d hd

theorem ccFold_tie (now : Int) :
    ∀ (L : List EventRec), L.Pairwise (fun a b => endKey a ≤ endKey b) →
    ∀ (b0 : Option EventRec) (bd0 : Int),
      (∀ b, b0 = some b → ∃ db, b.endDate = some db ∧ |db - now| = bd0 ∧
        ∀ e ∈ L, db ≤ endKey e) →
      ∀ b db, (L.foldl (ccStep now) (b0, bd0)).1 = some b →
        b.endDate = some db →
        ∀ e ∈ L, ∀ d, e.endDate = some d →
          |d - now| = (L.foldl (ccStep now) (b0, bd0)).2 → db ≤ d := by
  intro L
  induction L with
  | nil =>
    intro _ b0 bd0 _ b db _ _ e he
    cases he
  | cons x rest ih =>
    intro hsort b0 bd0 hb0 b db hfold hbdb e he d hd hdelta
    rcases List.pairwise_cons.mp hsort with ⟨hx, hrest⟩
    cases hxd : x.endDate with
    | none =>
      have hstep : ccStep now (b0, bd0) x = (b0, bd0) := by
        simp [ccStep, hxd]
      rw [List.foldl_cons, hstep] at hfold hdelta
      rcases List.mem_cons.mp he with heq | he'
      · subst heq
        rw [hxd] at hd
        simp at hd
      · refine ih hrest b0 bd0 ?_ b db hfold hbdb e he' d hd hdelta
        intro b' hb'
        rcases hb0 b' hb' with ⟨db', h1, h2, h3⟩
        exact ⟨db', h1, h2, fun e' he'' => h3 e' (List.mem_cons_of_mem x he'')⟩
    | some dx =>
      by_cases hlt : |dx - now| < bd0
      · have hstep : ccStep now (b0, bd0) x = (some x, |dx - now|) := by
          simp [ccStep, hxd, hlt]
        rw [List.foldl_cons, hstep] at hfold hdelta
        have hb0' : ∀ b', (some x : Option EventRec) = some b' →
            ∃ db', b'.endDate = some db' ∧ |db' - now| = |dx - now| ∧
              ∀ e' ∈ rest, db' ≤ endKey e' := by
          intro b' hb'
          have hxb : x = b' := by injection hb'
          subst hxb
          refine ⟨dx, hxd, rfl, ?_⟩
          intro e' he''
          simpa only [endKey, hxd, Option.getD_some] using hx e' he''
        rcases List.mem_cons.mp he with heq | he'
        · -- the tie element is x itself (surviving under the name `e`)
          subst heq
          rw [hxd] at hd
          injection hd with hddx
          subst hddx
          have hlb := (ccFold_lb now rest (some e) (|dx - now|)).1
          rcases (ccFold_shape now rest (some e) (|dx - now|)).2 b hfold with
            ⟨hb, hbd⟩ | ⟨_, db'', _, _, hless⟩
          · have hxb : e = b := by injection hb
            subst hxb
            rw [hxd] at hbdb
            injection hbdb with hdbx
            omega
          · omega
        · exact ih hrest (some x) (|dx - now|) hb0' b db hfold hbdb e he' d hd hdelta
      · have hstep : ccStep now (b0, bd0) x = (b0, bd0) := by
          simp [ccStep, hxd, hlt]
        rw [List.foldl_cons, hstep] at hfold hdelta
        have hb0w : ∀ b', b0 = some b' →
            ∃ db', b'.endDate = some db' ∧ |db' - now| = bd0 ∧
              ∀ e' ∈ rest, db' ≤ endKey e' := by
          intro b' hb'
          rcases hb0 b' hb' with ⟨db', h1, h2, h3⟩
          exact ⟨db', h1, h2, fun e' he'' => h3 e' (List.mem_cons_of_mem x he'')⟩
        rcases List.mem_cons.mp he with heq | he'
        · -- the tie element is x (surviving as `e`), which did not improve
          subst heq
          rw [hxd] at hd
          injection hd with hddx
          subst hddx
          have hlb := (ccFold_lb now rest b0 bd0).1
          rcases (ccFold_shape now rest b0 bd0).2 b hfold with
            ⟨hb, hbd⟩ | ⟨_, db'', _, _, hless⟩
          · rcases hb0 b hb with ⟨db', h1, h2, h3⟩
            rw [hbdb] at h1
            injection h1 with hdb'
            subst hdb'
            have hkey := h3 e (List.mem_cons_self e rest)
            simpa only [endKey, hxd, Option.getD_some] using hkey
          · omega
        · exact ih hrest b0 bd0 hb0w b db hfold hbdb e he' d hd hdelta

/-! ## Claim C8 — current-tournament selection -/

/-- C8 (amended): among the snapshots with a parseable `end_date`,
`choose_current` picks the one whose `end_date` is closest to `now` in
absolute difference, breaking ties in favour of the earliest `end_date`,
and never picks a snapshot without an `end_date` — *provided* some dated
snapshot lies strictly within the `timedelta(days=9999)` sentinel that
seeds the running best. -/
theorem C8_closest_end_date_selection (results : List EventRec) (now : Int)
    (e0 : EventRec) (d0 : Int) (h0 : e0 ∈ results) (hd0 : e0.endDate = some d0)
    (hnear : |d0 - now| < 9999 * 86400) :
    ∃ b db, choose_current results now = some b ∧ b ∈ results ∧
      b.endDate = some db ∧
      ∀ e ∈ results, ∀ d, e.endDate = some d →
        |db - now| ≤ |d - now| ∧ (|db - now| = |d - now| → db ≤ d) := by
  have htrans : ∀ a b c : EventRec,
      (decide (endKey a ≤ endKey b)) = true →
      (decide (endKey b ≤ endKey c)) = true →
      (decide (endKey a ≤ endKey c)) = true := by
    intro a b c h1 h2
    simp only [decide_eq_true_eq] at h1 h2 ⊢
    omega
  have htot : ∀ a b : EventRec, (decide (endKey a ≤ endKey b)) = true ∨
      (decide (endKey b ≤ endKey a)) = true := by
    intro a b
    simp only [decide_eq_true_eq]
    omega
  have hmemL : ∀ a : EventRec,
      a ∈ sortLe (fun a b => decide (endKey a ≤ endKey b)) results ↔
        a ∈ results := fun a =>
    mem_sortLe (fun a b => decide (endKey a ≤ endKey b)) a results
  have hpair : (sortLe (fun a b => decide (endKey a ≤ endKey b))
      results).Pairwise (fun a b => endKey a ≤ endKey b) := by
    refine (pairwise_sortLe _ htrans htot results).imp ?_
    intro a b h
    simpa only [decide_eq_true_eq] using h
  have hcc : choose_current results now =
      ((sortLe (fun a b => decide (endKey a ≤ endKey b)) results).foldl
        (ccStep now) ((none : Option EventRec), (9999 * 86400 : Int))).1 := rfl
  have hb0none : ∀ b : EventRec, (none : Option EventRec) = some b →
      ∃ db, b.endDate = some db ∧ |db - now| = (9999 * 86400 : Int) ∧
        ∀ e ∈ sortLe (fun a b => decide (endKey a ≤ endKey b)) results,
          db ≤ endKey e := by
    intro b hb
    cases hb
  cases hr : ((sortLe (fun a b => decide (endKey a ≤ endKey b)) results).foldl
      (ccStep now) ((none : Option EventRec), (9999 * 86400 : Int))).1 with
  | none =>
    exfalso
    have hsh := (ccFold_shape now
      (sortLe (fun a b => decide (endKey a ≤ endKey b)) results)
      none (9999 * 86400)).1 hr
    have hlbe := (ccFold_lb now
      (sortLe (fun a b => decide (endKey a ≤ endKey b)) results)
      none (9999 * 86400)).2 e0 ((hmemL e0).mpr h0) d0 hd0
    omega
  | some b =>
    have hsh := (ccFold_shape now
      (sortLe (fun a b => decide (endKey a ≤ endKey b)) results)
      none (9999 * 86400)).2 b hr
    rcases hsh with ⟨hb, _⟩ | ⟨hmem, db, hdb, hdelta, _⟩
    · cases hb
    · refine ⟨b, db, by rw [hcc, hr], (hmemL b).mp hmem, hdb, ?_⟩
      intro e he d hd
      have hlbe := (ccFold_lb now
        (sortLe (fun a b => decide (endKey a ≤ endKey b)) results)
        none (9999 * 86400)).2 e ((hmemL e).mpr he) d hd
      refine ⟨by omega, ?_⟩
      intro heq
      exact ccFold_tie now
        (sortLe (fun a b => decide (endKey a ≤ endKey b)) results) hpair
        none (9999 * 86400) hb0none b db hr hdb e ((hmemL e).mpr he) d hd
        (by omega)

/-- A snapshot whose `end_date` lies exactly `timedelta(days=9999)` away
from `now = 0`. -/
def evSentinel : EventRec :=
  { eventId := some 904, eventName := some "Sentinel",
    endDate := some (9999 * 86400), rounds := [], total := none,
    scoreToPar := none }

/-- C8 counterexample: `evSentinel` has a parseable `end_date` and is the
only snapshot, yet `choose_current` selects nothing, because the running
best starts at the `timedelta(days=9999)` sentinel and only a strictly
smaller distance is ever kept.  This refutes the claim that the selection
always picks some snapshot among those with a parseable `end_date`. -/
theorem C8_sentinel_counterexample :
    evSentinel.endDate = some (9999 * 86400) ∧
    choose_current [evSentinel] 0 = none := by decide

/-- A near-dated snapshot for the C8 witness. -/
def evNear : EventRec :=
  { eventId := some 905, eventName := some "Near", endDate := some 100,
    rounds := [], total := none, scoreToPar := none }

/-- C8 witness: the amended selection theorem applied to a concrete
singleton list. -/
theorem C8_witness :
    ∃ b db, choose_current [evNear] 0 = some b ∧ b ∈ [evNear] ∧
      b.endDate = some db ∧
      ∀ e ∈ [evNear], ∀ d, e.endDate = some d →
        |db - 0| ≤ |d - 0| ∧ (|db - 0| = |d - 0| → db ≤ d) :=
  C8_closest_end_date_selection [evNear] 0 evNear 100 (by decide) (by decide)
    (by decide)

/-! ## Lemmas on the round-diff loop -/

theorem detectRounds_posts_le (rounds : List RoundEntry) :
    ∀ (idx : List Int) (acc : List (String × Int) × List Int),
      acc.2.length ≤ (detectRounds rounds idx acc).2.length := by
  intro idx
  induction idx with
  | nil => intro acc; simp [detectRounds]
  | cons i rest ih =>
    intro acc
    cases hs : strokesOf rounds i with
    | none => simpa only [detectRounds, hs] using ih acc
    | some s =>
      by_cases hseen : aget acc.1 (rKey i) = some s
      · simpa only [detectRounds, hs, if_pos hseen] using ih acc
      · have h2 := ih (aset acc.1 (rKey i) s, acc.2 ++ [i])
        simp only [detectRounds, hs, if_neg hseen]
        simp only [List.length_append, List.length_cons, List.length_nil] at h2
        omega

theorem detectRounds_no_posts (rounds : List RoundEntry) :
    ∀ (idx : List Int) (seen : List (String × Int)) (posts : List Int),
      (detectRounds rounds idx (seen, posts)).2 = posts →
      detectRounds rounds idx (seen, posts) = (seen, posts) := by
  intro idx
  induction idx with
  | nil => intro seen posts _; simp [detectRounds]
  | cons i rest ih =>
    intro seen posts hp
    cases hs : strokesOf rounds i with
    | none =>
      simp only [detectRounds, hs] at hp ⊢
      exact ih seen posts hp
    | some s =>
      by_cases hseen : aget seen (rKey i) = some s
      · simp only [detectRounds, hs, if_pos hseen] at hp ⊢
        exact ih seen posts hp
      · exfalso
        simp only [detectRounds, hs, if_neg hseen] at hp
        have := detectRounds_posts_le rounds rest (aset seen (rKey i) s, posts ++ [i])
        rw [hp] at this
        simp only [List.length_append, List.length_cons, List.length_nil] at this
        omega

theorem detectRounds_nil_sync (rounds : List RoundEntry) :
    ∀ (idx : List Int) (seen : List (String × Int)) (posts : List Int),
      (detectRounds rounds idx (seen, posts)).2 = posts →
      ∀ j ∈ idx, ∀ s, strokesOf rounds j = some s →
        aget seen (rKey j) = some s := by
  intro idx
  induction idx with
  | nil => intro seen posts _ j hj; cases hj
  | cons i rest ih =>
    intro seen posts hp j hj s hs
    cases hsi : strokesOf rounds i with
    | none =>
      simp only [detectRounds, hsi] at hp
      rcases List.mem_cons.mp hj with heq | hj'
      · subst heq
        rw [hsi] at hs
        cases hs
      · exact ih seen posts hp j hj' s hs
    | some si =>
      by_cases hseen : aget seen (rKey i) = some si
      · simp only [detectRounds, hsi, if_pos hseen] at hp
        rcases List.mem_cons.mp hj with heq | hj'
        · subst heq
          rw [hsi] at hs
          injection hs with hss
          subst hss
          exact hseen
        · exact ih seen posts hp j hj' s hs
      · exfalso
        simp only [detectRounds, hsi, if_neg hseen] at hp
        have := detectRounds_posts_le rounds rest (aset seen (rKey i) si, posts ++ [i])
        rw [hp] at this
        simp only [List.length_append, List.length_cons, List.length_nil] at this
        omega

theorem detectRounds_preserve (rounds : List RoundEntry) :
    ∀ (idx : List Int) (acc : List (String × Int) × List Int) (k : String),
      (∀ i ∈ idx, rKey i ≠ k) →
      aget (detectRounds rounds idx acc).1 k = aget acc.1 k := by
  intro idx
  induction idx with
  | nil => intro acc k _; simp [detectRounds]
  | cons i rest ih =>
    intro acc k hk
    have hik : rKey i ≠ k := hk i (List.mem_cons_self i rest)
    have hrest : ∀ i' ∈ rest, rKey i' ≠ k :=
      fun i' hi' => hk i' (List.mem_cons_of_mem i hi')
    cases hs : strokesOf rounds i with
    | none => simp only [detectRounds, hs]; exact ih acc k hrest
    | some s =>
      by_cases hseen : aget acc.1 (rKey i) = some s
      · simp only [detectRounds, hs, if_pos hseen]
        exact ih acc k hrest
      · simp only [detectRounds, hs, if_neg hseen]
        rw [ih (aset acc.1 (rKey i) s, acc.2 ++ [i]) k hrest]
        exact aget_aset_ne acc.1 (rKey i) k s (fun hh => hik hh.symm)

theorem detectRounds_sync (rounds : List RoundEntry) :
    ∀ (idx : List Int), idx.Pairwise (fun a b => rKey a ≠ rKey b) →
      ∀ (acc : List (String × Int) × List Int) (j : Int), j ∈ idx →
        ∀ s, strokesOf rounds j = some s →
          aget (detectRounds rounds idx acc).1 (rKey j) = some s := by
  intro idx
  induction idx with
  | nil => intro _ acc j hj; cases hj
  | cons i rest ih =>
    intro hpw acc j hj s hs
    rcases List.pairwise_cons.mp hpw with ⟨hi, hrest⟩
    rcases List.mem_cons.mp hj with heq | hj'
    · subst heq
      have hkeys : ∀ i' ∈ rest, rKey i' ≠ rKey j :=
        fun i' hi' hh => (hi i' hi') hh.symm
      by_cases hseen : aget acc.1 (rKey j) = some s
      · simp only [detectRounds, hs, if_pos hseen]
        rw [detectRounds_preserve rounds rest acc (rKey j) hkeys]
        exact hseen
      · simp only [detectRounds, hs, if_neg hseen]
        rw [detectRounds_preserve rounds rest _ (rKey j) hkeys]
        exact aget_aset_self acc.1 (rKey j) s
    · cases hsi : strokesOf rounds i with
      | none =>
        simp only [detectRounds, hsi]
        exact ih hrest acc j hj' s hs
      | some si =>
        by_cases hseen : aget acc.1 (rKey i) = some si
        · simp only [detectRounds, hsi, if_pos hseen]
          exact ih hrest acc j hj' s hs
        · simp only [detectRounds, hsi, if_neg hseen]
          exact ih hrest _ j hj' s hs

theorem detectRounds_stable (rounds : List RoundEntry) :
    ∀ (idx : List Int) (seen : List (String × Int)) (posts : List Int),
      (∀ j ∈ idx, ∀ s, strokesOf rounds j = some s →
        aget seen (rKey j) = some s) →
      detectRounds rounds idx (seen, posts) = (seen, posts) := by
  intro idx
  induction idx with
  | nil => intro seen posts _; simp [detectRounds]
  | cons i rest ih =>
    intro seen posts hsync
    cases hs : strokesOf rounds i with
    | none =>
      simp only [detectRounds, hs]
      exact ih seen posts
        (fun j hj => hsync j (List.mem_cons_of_mem i hj))
    | some s =>
      have hseen : aget seen (rKey i) = some s :=
        hsync i (List.mem_cons_self i rest) s hs
      simp only [detectRounds, hs, if_pos hseen]
      exact ih seen posts
        (fun j hj => hsync j (List.mem_cons_of_mem i hj))

/-- The four round keys `R1`..`R4` are pairwise distinct. -/
theorem rKey_pairwise :
    ([1, 2, 3, 4] : List Int).Pairwise (fun a b => rKey a ≠ rKey b) := by
  decide

/-! ## Lemmas on the poll phases of `bot.py` -/

theorem roundPhase_posted (st : BotState) (c : Option EventRec) (a : Bool) :
    (roundPhase st c a).2.postedFinalFor = st.postedFinalFor := by
  cases c with
  | none => cases a <;> rfl
  | some ev =>
    cases a
    · rfl
    · simp only [roundPhase]
      split <;> rfl

theorem roundPhase_lfc (st : BotState) (c : Option EventRec) (a : Bool) :
    (roundPhase st c a).2.lastFullCheck = st.lastFullCheck := by
  cases c with
  | none => cases a <;> rfl
  | some ev =>
    cases a
    · rfl
    · simp only [roundPhase]
      split <;> rfl

theorem roundPhase_no_final (st : BotState) (c : Option EventRec) (a : Bool)
    (k : String) : BotEvent.finalMsg k ∉ (roundPhase st c a).1 := by
  cases c with
  | none => cases a <;> simp [roundPhase]
  | some ev =>
    cases a
    · simp [roundPhase]
    · simp only [roundPhase]
      split
      · simp
      · intro hmem
        simp only [List.mem_map, List.mem_filter] at hmem
        rcases hmem with ⟨p, _, he⟩
        cases he

theorem finishPhase_lrh (st : BotState) (c : Option EventRec) (now : Int) :
    (finishPhase st c now).2.lastRoundHash = st.lastRoundHash := by
  cases c with
  | none => rfl
  | some ev =>
    simp only [finishPhase]
    split
    · split <;> rfl
    · rfl

theorem finishPhase_spec (st : BotState) (c : Option EventRec) (now : Int) :
    finishPhase st c now = ([], st) ∨
    (∃ ev, c = some ev ∧ event_active ev now = false ∧
      st.postedFinalFor.contains (idStr ev) = false ∧
      finishPhase st c now = ([BotEvent.finalMsg (idStr ev)],
        { st with postedFinalFor := st.postedFinalFor ++ [idStr ev] })) := by
  cases c with
  | none => exact Or.inl rfl
  | some ev =>
    by_cases ha : event_active ev now = true
    · left
      simp [finishPhase, ha]
    · have ha' : event_active ev now = false := by
        revert ha
        cases event_active ev now <;> simp
      by_cases hc : st.postedFinalFor.contains (idStr ev) = true
      · left
        simp only [finishPhase, ha', Bool.not_false, if_true, hc]
      · have hc' : st.postedFinalFor.contains (idStr ev) = false := by
          revert hc
          cases st.postedFinalFor.contains (idStr ev) <;> simp
        right
        refine ⟨ev, rfl, ha', hc', ?_⟩
        simp only [finishPhase, ha', Bool.not_false, if_true, hc',
          Bool.false_eq_true, if_false]

theorem pollCore_events (st : BotState) (c : Option EventRec) (now : Int)
    (a : Bool) : (pollCore st c now a).events =
      (roundPhase st c a).1 ++ (finishPhase (roundPhase st c a).2 c now).1 := rfl

theorem pollCore_posted (st : BotState) (c : Option EventRec) (now : Int)
    (a : Bool) : (pollCore st c now a).state.postedFinalFor =
      (finishPhase (roundPhase st c a).2 c now).2.postedFinalFor := rfl

theorem pollCore_lrh (st : BotState) (c : Option EventRec) (now : Int)
    (a : Bool) : (pollCore st c now a).state.lastRoundHash =
      (finishPhase (roundPhase st c a).2 c now).2.lastRoundHash := rfl

theorem pollCore_lfc (st : BotState) (c : Option EventRec) (now : Int)
    (a : Bool) : (pollCore st c now a).state.lastFullCheck = now := rfl

theorem pollCore_posted_sup (st : BotState) (c : Option EventRec) (now : Int)
    (a : Bool) (k : String) (hk : k ∈ st.postedFinalFor) :
    k ∈ (pollCore st c now a).state.postedFinalFor := by
  rw [pollCore_posted]
  have h1 := roundPhase_posted st c a
  rcases finishPhase_spec (roundPhase st c a).2 c now with hsp | ⟨ev, _, _, _, hsp⟩
  · rw [hsp, h1]
    exact hk
  · rw [hsp]
    simp only []
    rw [h1]
    exact List.mem_append_left _ hk

theorem pollCore_final_mem (st : BotState) (c : Option EventRec) (now : Int)
    (a : Bool) (k : String)
    (hm : BotEvent.finalMsg k ∈ (pollCore st c now a).events) :
    k ∉ st.postedFinalFor ∧ k ∈ (pollCore st c now a).state.postedFinalFor := by
  rw [pollCore_events] at hm
  rcases List.mem_append.mp hm with hm1 | hm2
  · exact absurd hm1 (roundPhase_no_final st c a k)
  · rcases finishPhase_spec (roundPhase st c a).2 c now with hsp | ⟨ev, _, _, hcf, hsp⟩
    · rw [hsp] at hm2
      cases hm2
    · rw [hsp] at hm2
      simp only [List.mem_singleton] at hm2
      have hk : k = idStr ev := by injection hm2
      subst hk
      have hnot : idStr ev ∉ (roundPhase st c a).2.postedFinalFor := by
        intro hin
        have hct : (roundPhase st c a).2.postedFinalFor.contains (idStr ev)
            = true := List.elem_iff.mpr hin
        rw [hct] at hcf
        cases hcf
      rw [roundPhase_posted] at hnot
      refine ⟨hnot, ?_⟩
      rw [pollCore_posted, hsp]
      exact List.mem_append_right _ (List.mem_singleton.mpr rfl)

theorem pollCore_posted_new (st : BotState) (c : Option EventRec) (now : Int)
    (a : Bool) (k : String)
    (hk : k ∈ (pollCore st c now a).state.postedFinalFor) :
    k ∈ st.postedFinalFor ∨ BotEvent.finalMsg k ∈ (pollCore st c now a).events := by
  rw [pollCore_posted] at hk
  rcases finishPhase_spec (roundPhase st c a).2 c now with hsp | ⟨ev, _, _, _, hsp⟩
  · rw [hsp, roundPhase_posted] at hk
    exact Or.inl hk
  · rw [hsp] at hk
    simp only [] at hk
    rw [roundPhase_posted] at hk
    rcases List.mem_append.mp hk with hk1 | hk2
    · exact Or.inl hk1
    · right
      rw [List.mem_singleton] at hk2
      subst hk2
      rw [pollCore_events, hsp]
      exact List.mem_append_right _ (List.mem_singleton.mpr rfl)

theorem pollCore_count (st : BotState) (c : Option EventRec) (now : Int)
    (a : Bool) (k : String) :
    (pollCore st c now a).events.count (BotEvent.finalMsg k) ≤ 1 := by
  rw [pollCore_events, List.count_append]
  have h1 : (roundPhase st c a).1.count (BotEvent.finalMsg k) = 0 :=
    List.count_eq_zero.mpr (roundPhase_no_final st c a k)
  rcases finishPhase_spec (roundPhase st c a).2 c now with hsp | ⟨ev, _, _, _, hsp⟩
  · rw [hsp, h1]
    simp
  · rw [hsp, h1]
    simp only [Nat.zero_add]
    exact List.count_le_length _ _

/-! ## Lemmas on one poll of `bot.py` -/

theorem run_once_split (st : BotState) (results : List EventRec) (now : Int) :
    (results.isEmpty = true ∧ run_once_and_post st results now = ⟨[], st, false⟩) ∨
    (results.isEmpty = false ∧
      curActive (choose_current results now) now = false ∧
      now - st.lastFullCheck < 4 * 3600 ∧
      run_once_and_post st results now =
        ⟨[], { st with lastFullCheck := now }, false⟩) ∨
    (results.isEmpty = false ∧
      (!curActive (choose_current results now) now &&
        decide (now - st.lastFullCheck < 4 * 3600)) = false ∧
      run_once_and_post st results now =
        pollCore st (choose_current results now) now
          (curActive (choose_current results now) now)) := by
  by_cases h1 : results.isEmpty = true
  · exact Or.inl ⟨h1, by simp only [run_once_and_post, if_pos h1]⟩
  · have h1' : results.isEmpty = false := by
      revert h1
      cases results.isEmpty <;> simp
    by_cases h2 : (!curActive (choose_current results now) now &&
        decide (now - st.lastFullCheck < 4 * 3600)) = true
    · have h2c := h2
      simp only [Bool.and_eq_true] at h2c
      rcases h2c with ⟨hna, hd⟩
      refine Or.inr (Or.inl ⟨h1', ?_, of_decide_eq_true hd, ?_⟩)
      · revert hna
        cases curActive (choose_current results now) now <;> simp
      · simp only [run_once_and_post, if_neg h1, if_pos h2]
    · have h2' : (!curActive (choose_current results now) now &&
          decide (now - st.lastFullCheck < 4 * 3600)) = false := by
        revert h2
        cases (!curActive (choose_current results now) now &&
          decide (now - st.lastFullCheck < 4 * 3600)) <;> simp
      refine Or.inr (Or.inr ⟨h1', h2', ?_⟩)
      simp only [run_once_and_post, if_neg h1, if_neg h2]

theorem run_once_posted_mono (st : BotState) (results : List EventRec)
    (now : Int) (k : String) (hk : k ∈ st.postedFinalFor) :
    k ∈ (run_once_and_post st results now).state.postedFinalFor := by
  rcases run_once_split st results now with ⟨_, heq⟩ | ⟨_, _, _, heq⟩ | ⟨_, _, heq⟩ <;>
    rw [heq]
  · exact hk
  · exact hk
  · exact pollCore_posted_sup _ _ _ _ k hk

theorem run_once_final_mem (st : BotState) (results : List EventRec)
    (now : Int) (k : String)
    (hm : BotEvent.finalMsg k ∈ (run_once_and_post st results now).events) :
    k ∉ st.postedFinalFor ∧
    k ∈ (run_once_and_post st results now).state.postedFinalFor := by
  rcases run_once_split st results now with ⟨_, heq⟩ | ⟨_, _, _, heq⟩ | ⟨_, _, heq⟩ <;>
    rw [heq] at hm ⊢
  · cases hm
  · cases hm
  · exact pollCore_final_mem _ _ _ _ k hm

theorem run_once_posted_new (st : BotState) (results : List EventRec)
    (now : Int) (k : String)
    (hk : k ∈ (run_once_and_post st results now).state.postedFinalFor) :
    k ∈ st.postedFinalFor ∨
    BotEvent.finalMsg k ∈ (run_once_and_post st results now).events := by
  rcases run_once_split st results now with ⟨_, heq⟩ | ⟨_, _, _, heq⟩ | ⟨_, _, heq⟩ <;>
    rw [heq] at hk ⊢
  · exact Or.inl hk
  · exact Or.inl hk
  · exact pollCore_posted_new _ _ _ _ k hk

theorem run_once_count (st : BotState) (results : List EventRec) (now : Int)
    (k : String) :
    (run_once_and_post st results now).events.count (BotEvent.finalMsg k) ≤ 1 := by
  rcases run_once_split st results now with ⟨_, heq⟩ | ⟨_, _, _, heq⟩ | ⟨_, _, heq⟩ <;>
    rw [heq]
  · simp
  · simp
  · exact pollCore_count _ _ _ _ k

theorem run_once_lfc (st : BotState) (results : List EventRec) (now : Int)
    (h : results.isEmpty = false) :
    (run_once_and_post st results now).state.lastFullCheck = now := by
  rcases run_once_split st results now with ⟨he, _⟩ | ⟨_, _, _, heq⟩ | ⟨_, _, heq⟩
  · rw [h] at he
    cases he
  · rw [heq]
  · rw [heq]
    exact pollCore_lfc _ _ _ _

theorem roundPhase_sync (st : BotState) (c : EventRec) :
    ∀ j ∈ ([1, 2, 3, 4] : List Int), ∀ s, strokesOf c.rounds j = some s →
      aget ((aget (roundPhase st (some c) true).2.lastRoundHash
        (idStr c)).getD []) (rKey j) = some s := by
  intro j hj s hs
  simp only [roundPhase]
  by_cases hd : (detectRounds c.rounds [1, 2, 3, 4]
      ((aget st.lastRoundHash (idStr c)).getD [], ([] : List Int))).2 = []
  · rw [if_pos hd]
    exact detectRounds_nil_sync c.rounds [1, 2, 3, 4]
      ((aget st.lastRoundHash (idStr c)).getD []) [] hd j hj s hs
  · rw [if_neg hd]
    simp only []
    rw [aget_aset_self, Option.getD_some]
    exact detectRounds_sync c.rounds [1, 2, 3, 4] rKey_pairwise _ j hj s hs

theorem roundPhase_stable (st : BotState) (c : EventRec)
    (hsync : ∀ j ∈ ([1, 2, 3, 4] : List Int), ∀ s,
      strokesOf c.rounds j = some s →
      aget ((aget st.lastRoundHash (idStr c)).getD []) (rKey j) = some s) :
    roundPhase st (some c) true = ([], st) := by
  have hd : detectRounds c.rounds [1, 2, 3, 4]
      ((aget st.lastRoundHash (idStr c)).getD [], ([] : List Int)) =
      ((aget st.lastRoundHash (idStr c)).getD [], []) :=
    detectRounds_stable c.rounds [1, 2, 3, 4] _ [] hsync
  simp only [roundPhase, hd]
  simp

/-! ## Claim C5 — idempotence of one poll -/

/-- C5: one poll of `bot.py` is idempotent — running `run_once_and_post`
again on the identical result list at the same time, starting from the state
the first run saved, emits no messages: on the throttled or inactive paths
the refreshed `last_full_check` re-throttles the second run at zero events,
and on the active path the stored per-round values already agree with the
snapshot and the finish branch is gated by activity. -/
theorem C5_idempotent_poll (st : BotState) (results : List EventRec)
    (now : Int) :
    (run_once_and_post (run_once_and_post st results now).state results
      now).events = [] := by
  by_cases h1 : results.isEmpty = true
  · simp only [run_once_and_post, if_pos h1]
  · have h1' : results.isEmpty = false := by
      revert h1
      cases results.isEmpty <;> simp
    have hlfc : (run_once_and_post st results now).state.lastFullCheck = now :=
      run_once_lfc st results now h1'
    by_cases hact : curActive (choose_current results now) now = true
    · -- active: the second run reaches pollCore and both phases are silent
      have hfirst : run_once_and_post st results now =
          pollCore st (choose_current results now) now
            (curActive (choose_current results now) now) := by
        rcases run_once_split st results now with
          ⟨he, _⟩ | ⟨_, hact2, _, _⟩ | ⟨_, _, heq⟩
        · rw [h1'] at he
          cases he
        · rw [hact] at hact2
          cases hact2
        · exact heq
      obtain ⟨c, hc, hca⟩ : ∃ c, choose_current results now = some c ∧
          event_active c now = true := by
        revert hact
        unfold curActive
        cases hcc : choose_current results now with
        | none => simp
        | some c => intro h; exact ⟨c, rfl, h⟩
      have hsecond : run_once_and_post
          (run_once_and_post st results now).state results now =
          pollCore (run_once_and_post st results now).state
            (choose_current results now) now
            (curActive (choose_current results now) now) := by
        rcases run_once_split (run_once_and_post st results now).state
            results now with ⟨he, _⟩ | ⟨_, hact2, _, _⟩ | ⟨_, _, heq⟩
        · rw [h1'] at he
          cases he
        · rw [hact] at hact2
          cases hact2
        · exact heq
      have hlrh : (run_once_and_post st results now).state.lastRoundHash =
          (roundPhase st (some c) true).2.lastRoundHash := by
        rw [hfirst, hact, hc, pollCore_lrh, finishPhase_lrh]
      have hsync : ∀ j ∈ ([1, 2, 3, 4] : List Int), ∀ s,
          strokesOf c.rounds j = some s →
          aget ((aget (run_once_and_post st results now).state.lastRoundHash
            (idStr c)).getD []) (rKey j) = some s := by
        intro j hj s hs
        rw [hlrh]
        exact roundPhase_sync st c j hj s hs
      rw [hsecond, hact, hc, pollCore_events,
        roundPhase_stable _ c hsync]
      simp [finishPhase, hca]
    · -- inactive: the second run is throttled by the refreshed timestamp
      have hact' : curActive (choose_current results now) now = false := by
        revert hact
        cases curActive (choose_current results now) now <;> simp
      have hcond2 : (!curActive (choose_current results now) now &&
          decide (now - (run_once_and_post st results now).state.lastFullCheck
            < 4 * 3600)) = true := by
        rw [hact', hlfc]
        simp
      rcases run_once_split (run_once_and_post st results now).state results
          now with ⟨he, _⟩ | ⟨_, _, _, heq⟩ | ⟨_, hgate, _⟩
      · rw [h1'] at he
        cases he
      · rw [heq]
      · rw [hcond2] at hgate
        cases hgate

/-! ## Claim C1 — at-most-once finish notification -/

theorem runTrace_posted_zero (k : String) :
    ∀ (polls : List (List EventRec × Int)) (st : BotState),
      k ∈ st.postedFinalFor →
      (runTrace st polls).count (BotEvent.finalMsg k) = 0 := by
  intro polls
  induction polls with
  | nil =>
    intro st _
    simp [runTrace]
  | cons p rest ih =>
    intro st hk
    simp only [runTrace, List.count_append]
    have h1 : (run_once_and_post st p.1 p.2).events.count
        (BotEvent.finalMsg k) = 0 := by
      apply List.count_eq_zero.mpr
      intro hmem
      exact (run_once_final_mem st p.1 p.2 k hmem).1 hk
    rw [h1, ih _ (run_once_posted_mono st p.1 p.2 k hk)]

/-- C1: across any sequence of polls of `bot.py` from any starting state,
the "tournament finished" message for a given event id is sent at most once:
a finish message is sent only when the id is absent from `posted_final_for`,
and the same poll appends the id to that list, which only ever grows. -/
theorem C1_at_most_once_finish (st : BotState)
    (polls : List (List EventRec × Int)) (k : String) :
    (runTrace st polls).count (BotEvent.finalMsg k) ≤ 1 := by
  induction polls generalizing st with
  | nil => simp [runTrace]
  | cons p rest ih =>
    simp only [runTrace, List.count_append]
    by_cases hk : k ∈ st.postedFinalFor
    · have h1 : (run_once_and_post st p.1 p.2).events.count
          (BotEvent.finalMsg k) = 0 := by
        apply List.count_eq_zero.mpr
        intro hmem
        exact (run_once_final_mem st p.1 p.2 k hmem).1 hk
      have h2 := runTrace_posted_zero k rest _
        (run_once_posted_mono st p.1 p.2 k hk)
      omega
    · by_cases hm : BotEvent.finalMsg k ∈ (run_once_and_post st p.1 p.2).events
      · have h1 := run_once_count st p.1 p.2 k
        have h2 := runTrace_posted_zero k rest _
          (run_once_final_mem st p.1 p.2 k hm).2
        omega
      · have h1 : (run_once_and_post st p.1 p.2).events.count
            (BotEvent.finalMsg k) = 0 := List.count_eq_zero.mpr hm
        have h2 := ih (run_once_and_post st p.1 p.2).state
        omega

/-! ## Claim C2 — the throttled path and `last_full_check` -/

/-- An event whose end date lies 100 days past the poll time: outside the
activity window, so the poll is inactive. -/
def evFarFuture : EventRec :=
  { eventId := some 903, eventName := some "Far", endDate := some (100 * 86400),
    rounds := [], total := none, scoreToPar := none }

/-- The prior state for the C2 run: `last_full_check` one hour before the
poll. -/
def c2State : BotState := ⟨0, [], []⟩

/-- C2 (code evaluated at the failing input): with the current tournament
inactive and only one hour elapsed since `last_full_check`, the poll emits
zero events — but, contrary to the claim, the throttled branch of
`run_once_and_post` (bot.py line 365) *overwrites* `last_full_check` with
the poll time instead of keeping its previous value, so under any polling
cadence faster than 4 hours the full path is never reached again. -/
theorem C2_throttled_poll_updates_last_full_check :
    event_active evFarFuture 3600 = false ∧
    c2State.lastFullCheck = 0 ∧
    (3600 : Int) - c2State.lastFullCheck < 4 * 3600 ∧
    (run_once_and_post c2State [evFarFuture] 3600).events = [] ∧
    (run_once_and_post c2State [evFarFuture] 3600).state.lastFullCheck
      = 3600 := by decide

/-! ## Claim C3 — the round message pairing -/

/-- A snapshot inside the active window whose only non-null round is round 2
(round 1 has no strokes). -/
def evRound2Only : EventRec :=
  { eventId := some 901, eventName := some "Gap", endDate := some 0,
    rounds := [⟨some 2, some 70, some 36⟩], total := none, scoreToPar := none }

/-- The empty prior state for the C3 run. -/
def c3State : BotState := ⟨0, [], []⟩

/-- C3 (code evaluated at the failing input): the tournament is active,
round 2 has a non-null stroke value that differs from the stored entry
(which is absent), and the poll does store the new value — yet *zero*
notifications are sent, because `zip([1,2,3,4], msgs)` in
`run_once_and_post` (bot.py line 385) pairs the filtered message list
against fresh positional indices: the single message (for round 2) is
paired with index 1, which is not in the to-post list.  This refutes the
claim that a `RoundCompleted` notification is emitted exactly when the
snapshot value for a round differs from the stored entry. -/
theorem C3_gap_round_drops_notification :
    event_active evRound2Only 0 = true ∧
    strokesOf evRound2Only.rounds 2 = some 70 ∧
    aget c3State.lastRoundHash "901" = none ∧
    (run_once_and_post c3State [evRound2Only] 0).events = [] ∧
    aget ((aget (run_once_and_post c3State [evRound2Only] 0).state.lastRoundHash
      "901").getD []) "R2" = some 70 := by decide

/-! ## Claim C6 — monotonicity of the two marker stores -/

/-- Bool-valued presence in the single-slot reminder marker of
`ms_leaderboard_bot.py` (`pre_alert_event_id`). -/
def markerHas (m : Option String) (k : String) : Bool := m == some k

/-- C6 (amended): `posted_final_for` is monotonic — a key present before a
poll of `bot.py` is present after it.  The reminder marker of
`ms_leaderboard_bot.py`, however, is a single slot, not a growing set: a
reminder step either leaves it unchanged or *overwrites* it with the key of
the newly reminded event. -/
theorem C6_marker_monotonicity :
    (∀ (st : BotState) (results : List EventRec) (now : Int) (k : String),
      k ∈ st.postedFinalFor →
      k ∈ (run_once_and_post st results now).state.postedFinalFor) ∧
    (∀ (marker : Option String) (sd : Option Int) (nm url : Option String)
      (today : Int) (eid : Option Int),
      (preAlertStep marker sd nm url today eid).2 = marker ∨
      ∃ u, url = some u ∧
        (preAlertStep marker sd nm url today eid).2 =
          some (preAlertKey eid u)) := by
  constructor
  · exact run_once_posted_mono
  · intro marker sd nm url today eid
    cases sd with
    | none => exact Or.inl rfl
    | some d =>
      cases nm with
      | none => exact Or.inl rfl
      | some n =>
        cases url with
        | none => exact Or.inl rfl
        | some u =>
          simp only [preAlertStep]
          by_cases hg : (n != "" && u != "") = true
          · rw [if_pos hg]
            by_cases hd : d - today = 2
            · rw [if_pos hd]
              by_cases hm : (!(marker == some (preAlertKey eid u))) = true
              · rw [if_pos hm]
                exact Or.inr ⟨u, rfl, rfl⟩
              · rw [if_neg hm]
                exact Or.inl rfl
            · rw [if_neg hd]
              exact Or.inl rfl
          · rw [if_neg hg]
            exact Or.inl rfl

/-- C6 witness: the monotonicity part applied to a state already containing
key `"A"` (with an empty result list), and the marker part applied to a
concrete reminder step. -/
theorem C6_witness :
    ("A" ∈ (run_once_and_post ⟨0, [], ["A"]⟩ [] 0).state.postedFinalFor) ∧
    ((preAlertStep none (some 2) (some "N") (some "u") 0 none).2 = none ∨
      ∃ u, (some "u" : Option String) = some u ∧
        (preAlertStep none (some 2) (some "N") (some "u") 0 none).2 =
          some (preAlertKey none u)) :=
  ⟨C6_marker_monotonicity.1 ⟨0, [], ["A"]⟩ [] 0 "A" (by decide),
   C6_marker_monotonicity.2 none (some 2) (some "N") (some "u") 0 none⟩

/-- C6 counterexample: the reminder marker holds `"A"`; a reminder for a
different event (id 7, start date 2 days ahead) fires and the slot now
holds `"7"` — key `"A"` is no longer present, refuting the claim that the
reminder markers are never removed or overwritten. -/
theorem C6_reminder_overwrite_counterexample :
    markerHas (some "A") "A" = true ∧
    preAlertStep (some "A") (some 12) (some "B") (some "u") 10 (some 7)
      = (true, some "7") ∧
    markerHas (preAlertStep (some "A") (some 12) (some "B") (some "u") 10
      (some 7)).2 "A" = false := by decide

/-! ## Claim C7 — the activity predicate -/

/-- C7: `event_active` is true exactly when the snapshot has a parseable
`end_date` with `now` inside `[end_date - 3 days, end_date + 12 hours]` and
the tournament is not finished, where finished means `Total` and
`ScoreToPar` present and all four rounds with non-null strokes.  In
particular a snapshot with an absent `end_date` is never active, and the
check is a total function of the optional date (it cannot raise). -/
theorem C7_event_active_characterization (e : EventRec) (now : Int) :
    event_active e now = true ↔
      ∃ ed, e.endDate = some ed ∧ ed - 3 * 86400 ≤ now ∧
        now ≤ ed + 12 * 3600 ∧
        (e.total.isSome && e.scoreToPar.isSome &&
          ([1, 2, 3, 4] : List Int).all
            (fun i => (strokesOf e.rounds i).isSome)) = false := by
  cases he : e.endDate with
  | none => simp [event_active, he]
  | some ed =>
    simp only [event_active, he]
    constructor
    · intro h
      by_cases hw : (decide (ed - 3 * 86400 ≤ now) &&
          decide (now ≤ ed + 12 * 3600)) = true
      · have hw2 := hw
        simp only [Bool.and_eq_true, decide_eq_true_eq] at hw2
        rw [hw] at h
        simp only [Bool.not_true, Bool.false_eq_true, if_false] at h
        refine ⟨ed, rfl, hw2.1, hw2.2, ?_⟩
        revert h
        cases (e.total.isSome && e.scoreToPar.isSome &&
          ([1, 2, 3, 4] : List Int).all
            (fun i => (strokesOf e.rounds i).isSome)) <;> simp
      · exfalso
        have hw' : (decide (ed - 3 * 86400 ≤ now) &&
            decide (now ≤ ed + 12 * 3600)) = false := by
          revert hw
          cases (decide (ed - 3 * 86400 ≤ now) &&
            decide (now ≤ ed + 12 * 3600)) <;> simp
        rw [hw'] at h
        simp at h
    · rintro ⟨ed', heq, h1, h2, hfin⟩
      injection heq with heq2
      subst heq2
      have hw : (decide (ed - 3 * 86400 ≤ now) &&
          decide (now ≤ ed + 12 * 3600)) = true := by
        simp only [Bool.and_eq_true, decide_eq_true_eq]
        omega
      rw [hw]
      simp only [Bool.not_true, Bool.false_eq_true, if_false]
      revert hfin
      cases (e.total.isSome && e.scoreToPar.isSome &&
        ([1, 2, 3, 4] : List Int).all
          (fun i => (strokesOf e.rounds i).isSome)) <;> simp

/-! ## Claim C9 — key derivation -/

/-- C9 (amended): `ev_key` prefers a *truthy* (non-zero, present) id: if
the chain `CompetitionId or EventId` yields a non-zero integer the key is
its decimal string; otherwise (ids absent or Python-falsy `0`) the key is
the truncated sha-256 of the `(name, end_date)` json pair, a function only
of the derived display name and the raw end date — so two id-less records
with equal name and end date collide to the same key. -/
theorem C9_key_derivation :
    (∀ (ev : DEvent) (n : Int),
      orInt ev.competitionId ev.eventId = some n → n ≠ 0 →
      ev_key ev = toString n) ∧
    (∀ ev1 ev2 : DEvent,
      truthyInt (orInt ev1.competitionId ev1.eventId) = false →
      truthyInt (orInt ev2.competitionId ev2.eventId) = false →
      orStr ev1.tournament ev1.tournamentName =
        orStr ev2.tournament ev2.tournamentName →
      ev1.endDate = ev2.endDate →
      ev_key ev1 = ev_key ev2) := by
  constructor
  · intro ev n h hn
    have ht2 : truthyInt (some n) = true := by
      simp [truthyInt, hn]
    simp only [ev_key, h, ht2, if_true, Option.getD_some]
  · intro ev1 ev2 h1 h2 hname hend
    simp only [ev_key, h1, h2, Bool.false_eq_true, if_false, hname, hend]

/-- A record carrying the explicit id 77 (and nothing else of note). -/
def evWithId : DEvent :=
  { competitionId := none, eventId := some 77, tournament := some "Open",
    tournamentName := none, endDate := some "2025-05-11", r1 := none,
    r2 := none, r3 := none, r4 := none, total := none, toPar := none }

/-- An id-less record. -/
def evNoId1 : DEvent :=
  { competitionId := none, eventId := none, tournament := some "Open",
    tournamentName := none, endDate := some "2025-05-11", r1 := some "70",
    r2 := none, r3 := none, r4 := none, total := none, toPar := none }

/-- A different id-less record with the same name and end date. -/
def evNoId2 : DEvent :=
  { competitionId := none, eventId := none, tournament := some "Open",
    tournamentName := none, endDate := some "2025-05-11", r1 := some "71",
    r2 := none, r3 := none, r4 := none, total := none, toPar := none }

/-- C9 witness: the amended derivation theorem applied to a record with id
77 and to two id-less records agreeing on name and end date. -/
theorem C9_witness :
    ev_key evWithId = toString (77 : Int) ∧ ev_key evNoId1 = ev_key evNoId2 :=
  ⟨C9_key_derivation.1 evWithId 77 (by decide) (by decide),
   C9_key_derivation.2 evNoId1 evNoId2 (by decide) (by decide) (by decide)
     (by decide)⟩

/-- A record that carries the id field with value `0`. -/
def evIdZero : DEvent :=
  { competitionId := none, eventId := some 0, tournament := some "X",
    tournamentName := none, endDate := some "D", r1 := none, r2 := none,
    r3 := none, r4 := none, total := none, toPar := none }

/-- C9 counterexample: a record that *does* carry a numeric id field
(`EventId = 0`) is nevertheless keyed by the hash — Python's `if cid:`
treats `0` as absent — so the key is the 12-character truncated sha-256 of
`["X", "D"]` and not the id string `"0"`, refuting the claim as stated. -/
theorem C9_zero_id_counterexample :
    evIdZero.eventId = some 0 ∧
    ev_key evIdZero = "33dfb8911fbb" ∧
    (ev_key evIdZero == toString (0 : Int)) = false := by decide

/-! ## Claim C10 — the field wrap-up predicate on an empty leaderboard -/

/-- C10: both variants of the "all players finished round N" predicate are
vacuously true on an empty player list, for every round number. -/
theorem C10_empty_leaderboard_vacuously_finished (rno : Int) :
    all_players_finished_round [] rno = true ∧
    everyone_finished_round [] rno = true := ⟨rfl, rfl⟩

/-! ## Claim C4 — first-run baseline behaviour -/

/-- A historical, already-finished tournament as it appears in the raw
payload of `dpwt_monitor_discord.py`. -/
def histEv : DEvent :=
  { competitionId := none, eventId := some 5, tournament := some "Open",
    tournamentName := none, endDate := some "2025-01-12", r1 := some "70",
    r2 := some "68", r3 := some "71", r4 := some "69", total := some "278",
    toPar := some "-10" }

/-- The same historical tournament in the normalized shape stored by
`dpwt_monitor_discord_playwright.py`, with `_finished = True`. -/
def histNorm : NormEvent :=
  { endDate := "12/01/2025", tournament := "Open", pos := "T5", r2dr := "",
    r2mr := "", prize := "100", r1 := "70", r2 := "68", r3 := "71",
    r4 := "69", total := "278", toPar := "-10", eventIdStr := "5",
    finished := true }

/-- C4: the Playwright monitor implements the claim — on a first run (no
baseline) it emits exactly the single baseline message carrying the
tournament count and no per-tournament events, in the gated and ungated
branch alike, and a tournament stored as finished in the baseline can never
fire a `finished_now` post on any later poll.  The sibling
`dpwt_monitor_discord.py`, however, violates the claim at the same input:
its `main` posts the baseline message and then runs the detection loop over
all items against the still-empty `events.json` state, so the first run
floods one round post per non-empty round and a final post for every
historical finished tournament. -/
theorem C4_first_run_baseline :
    (∀ (tick : Bool) (events : List NormEvent),
      pwStep tick none events =
        ([PWEvent.baselineMsg events.length], some events)) ∧
    (∀ newEvs : List NormEvent,
      (pwStep true (some [histNorm]) newEvs).1.count
        (PWEvent.finishedMsg "id:5") = 0) ∧
    (discRun false [] [histEv]).1 =
      [DiscEvent.baselineMsg 1, DiscEvent.roundMsg "5" 1 "70",
       DiscEvent.roundMsg "5" 2 "68", DiscEvent.roundMsg "5" 3 "71",
       DiscEvent.roundMsg "5" 4 "69", DiscEvent.finalMsg "5"] := by
  refine ⟨fun tick events => rfl, ?_, by decide⟩
  intro newEvs
  have hfin : (compare_baseline [histNorm] newEvs).finishedNow = [] := by
    simp only [compare_baseline]
    rw [List.filterMap_eq_nil_iff]
    intro p hp
    have ht : toMap [histNorm] = [("id:5", histNorm)] := rfl
    rw [ht]
    simp only [aget]
    by_cases hkey : ("id:5" : String) = p.1
    · rw [if_pos hkey]
      have hf : histNorm.finished = true := rfl
      simp [hf]
    · rw [if_neg hkey]
  simp only [pwStep, Bool.not_true, Bool.false_eq_true, if_false]
  split
  · simp
  · apply List.count_eq_zero.mpr
    intro hmem
    simp only [pwPosts, List.mem_append, List.mem_map] at hmem
    rcases hmem with (⟨e1, _, he1⟩ | ⟨e2, _, he2⟩) | ⟨e3, hin3, _⟩
    · cases he1
    · cases he2
    · rw [hfin] at hin3
      cases hin3

end DPTracker
